import Mathlib

/-!
# Verification of the winfomi-helper-bot ingestion and serving pipeline

Shallow embedding of the repository's own logic:
* `src/ingest.py` — `clean_html`, the crawl/accumulate loop, the dict-based
  deduplication, chunking parameters, and the Pinecone upsert step;
* `src/server.py` — module-level credential check, `/suggestions`,
  and `/chat`.

External collaborators (the HTML parser, the crawler, the embedding model,
the vector index, the chat model) are modelled as explicit inputs; where a
claim is decided by an external component's contract that the spec states
(the text splitter), the definition is modelled from the spec and marked so
in its doc comment.
-/

namespace WinfomiBot

/-- `listStarts p s` is true when `p` is an initial segment of `s`
(character-list version of string prefix testing, used for the Python
`in`-operator model below). -/
def listStarts : List Char → List Char → Bool
  | [], _ => true
  | _ :: _, [] => false
  | a :: p, b :: s => a == b && listStarts p s

/-- `listHasSub p s` is true when `p` occurs contiguously somewhere in `s`. -/
def listHasSub (p : List Char) : List Char → Bool
  | [] => p.isEmpty
  | b :: s => listStarts p (b :: s) || listHasSub p s

/-- Model of Python's `needle in haystack` for strings. -/
def containsSub (haystack needle : String) : Bool :=
  listHasSub needle.toList haystack.toList

/-- A fetched page record as produced by the crawler: `metadata['source']`
and the cleaned page text (`RecursiveUrlLoader` applies `clean_html` as its
extractor, so `text` holds cleaned text). -/
structure Doc where
  source : String
  text : String
deriving DecidableEq, Repr

/-- A chunk as stored in the vector index namespace: the chunk text plus the
`source` metadata carried over from its document. -/
structure Chunk where
  source : String
  text : String
deriving DecidableEq, Repr

/-! ## Deduplication (`src/ingest.py` line 162)

`unique_docs = {doc.metadata['source']: doc for doc in all_docs}.values()`

A Python dict comprehension inserts keys in iteration order; assigning an
existing key replaces its value in place, so the value kept for each key is
the last one seen.  We model the dict as an insertion-ordered association
list. -/

/-- Python dict assignment `m[k] = v`: replace in place if `k` is present,
otherwise append at the end. -/
def updateAssoc : List (String × Doc) → String → Doc → List (String × Doc)
  | [], k, v => [(k, v)]
  | (k', v') :: rest, k, v =>
      if k' = k then (k, v) :: rest else (k', v') :: updateAssoc rest k v

/-- Python dict lookup on the association-list model. -/
def lookupA : List (String × Doc) → String → Option Doc
  | [], _ => none
  | (k', v) :: rest, k => if k' = k then some v else lookupA rest k

/-- The dict built by `{doc.metadata['source']: doc for doc in all_docs}`. -/
def dictOfDocs (all_docs : List Doc) : List (String × Doc) :=
  all_docs.foldl (fun m d => updateAssoc m d.source d) []

/-- `unique_docs`: the `.values()` view of the comprehension dict. -/
def unique_docs (all_docs : List Doc) : List Doc :=
  (dictOfDocs all_docs).map Prod.snd

/-! ## Chunking (`src/ingest.py` lines 166–167)

`RecursiveCharacterTextSplitter(chunk_size=1000, chunk_overlap=200)` is an
external library the spec declares out of scope, so the splitter itself is
modelled from the spec's contract for the Chunker (section 4.4): chunks of at
most 1000 characters, consecutive chunks overlapping by 200 characters, the
final chunk possibly shorter.  The model takes successive 1000-character
windows advancing by 800 characters (the hard-cut fallback of the contract). -/

/-- Modelled from the spec: the text splitter (`RecursiveCharacterTextSplitter`,
an external library not under `src/`), with the configured `chunk_size=1000`
and `chunk_overlap=200`; fuel-based recursion so the definition is structural
and kernel-evaluable. -/
def chunksGo : Nat → List Char → List (List Char)
  | 0, s => [s]
  | fuel + 1, s =>
      if s.length ≤ 1000 then [s]
      else s.take 1000 :: chunksGo fuel (s.drop 800)

/-- Split one document text into overlapping chunks (`split_text` of the
configured splitter, modelled from the spec). -/
def split_text (s : List Char) : List (List Char) :=
  chunksGo s.length s

/-- Reassembly operator used to state the round-trip property: concatenate
all chunks, with each chunk's leading 200-character overlap region removed
(the first chunk has no previous chunk, hence no leading overlap). -/
def reassemble : List (List Char) → List Char
  | [] => []
  | c :: rest => c ++ (rest.map (fun d => d.drop 200)).flatten

/-- `text_splitter.split_documents(unique_docs)`: chunk every document in
order, tagging each chunk with its document's `source` metadata. -/
def split_documents (docs : List Doc) : List Chunk :=
  docs.flatMap (fun d => (split_text d.text.toList).map
    (fun c => { source := d.source, text := c.asString }))

/-! ## Crawl/accumulate loop (`src/ingest.py` lines 141–159)

Per seed URL the loader yields a batch `docs`; the loop computes
`valid_docs = [d for d in docs if "winfomi.com" in d.metadata['source']]`,
prints `len(valid_docs)`, and then does `all_docs.extend(docs)` — the
unfiltered batch.  The network fetch is external, so the loop takes the
fetched batches as input. -/

/-- The printed per-batch count of valid pages (line 153–155). -/
def validCount (docs : List Doc) : Nat :=
  (docs.filter (fun d => containsSub d.source "winfomi.com")).length

/-- The crawl loop: returns the accumulated `all_docs` list and the list of
printed valid-page counts, one per batch. -/
def crawlLoop (batches : List (List Doc)) : List Doc × List Nat :=
  batches.foldl (fun acc docs => (acc.1 ++ docs, acc.2 ++ [validCount docs])) ([], [])

/-! ## Upsert (`src/ingest.py` lines 169–181)

`PineconeVectorStore.from_documents(documents=splits, ..., namespace=NAMESPACE)`
adds the chunk records (under fresh ids) to the namespace; `ingest_data`
performs no deletion of the namespace's prior contents before this call.
The namespace is modelled as the list of stored chunk records. -/

/-- One run of `ingest_data` over the given fetched batches, acting on the
current contents `store` of the vector-index namespace: accumulate,
deduplicate, chunk, and upsert (append) — no deletion step precedes the
upsert in the source. -/
def ingest_data (store : List Chunk) (batches : List (List Doc)) : List Chunk :=
  store ++ split_documents (unique_docs (crawlLoop batches).1)

/-! ## Serving (`src/server.py`) -/

/-- The `ValueError` message raised by `src/server.py` line 30. -/
def missingKeysMsg : String :=
  "CRTICAL ERROR: Missing API Keys. Please check your .env file."

/-- Module-level credential check of `src/server.py` lines 23–30: read both
keys from the environment (`none` = unset; Python also treats the empty
string as falsy) and raise `ValueError` when either is missing. -/
def serverModuleLoad (groqKey pineconeKey : Option String) : Except String Unit :=
  if groqKey.getD "" = "" ∨ pineconeKey.getD "" = "" then
    Except.error missingKeysMsg
  else Except.ok ()

/-- Module-level configuration of `src/ingest.py` lines 111–118: the
Pinecone key is read with `os.getenv` but never validated, so module load
always succeeds regardless of the environment. -/
def ingestModuleLoad (pineconeKey : Option String) : Except String Unit :=
  let _ := pineconeKey
  Except.ok ()

/-- What the backing `suggestions.json` read can yield at request time:
the file is missing, present but unparseable JSON, present with a JSON list
of strings, or present with some other JSON value. -/
inductive SuggestionsFile where
  | missing
  | unparseable
  | jsonList (items : List String)
  | jsonOther
deriving DecidableEq, Repr

/-- `GET /suggestions` (`src/server.py` lines 201–212): returns the HTTP
status and the `suggestions` array.  `json.load` failures are caught and
fall through to the empty-list default; a non-list JSON value also falls
through; a missing file skips the read entirely. -/
def get_suggestions : SuggestionsFile → Nat × List String
  | SuggestionsFile.jsonList items => (200, items)
  | _ => (200, [])

/-- The fixed cool-down message for upstream rate limiting. -/
def coolDownMsg : String :=
  "I'm receiving too many questions right now. Please wait 10 seconds and try again."

/-- The fixed generic failure message. -/
def genericFailMsg : String :=
  "I'm having trouble connecting to the server. Please try again later."

/-- `POST /chat` (`src/server.py` lines 214–231): the RAG chain call is
external, so its outcome is an input — `Except.ok answer` when
`chain.invoke` returns, `Except.error msg` when it raises with error text
`msg`.  Returns the HTTP status and the `response` field.  Errors are
absorbed: rate limits (error text containing `"429"`) get the cool-down
message, everything else the generic message; the status is 200 on every
path. -/
def chat_endpoint (chainResult : Except String String) : Nat × String :=
  match chainResult with
  | Except.ok answer => (200, answer)
  | Except.error msg =>
      (200, if containsSub msg "429" then coolDownMsg else genericFailMsg)

/-! ## HTML cleaning (`src/ingest.py` lines 129–135)

`clean_html` operates on the tree produced by BeautifulSoup's `html.parser`
(the parser is external); the tree is modelled directly.  An element's
`class` attribute is multi-valued, modelled as a list of class tokens;
BeautifulSoup matches a compiled regex against each token with `search`, and
the pattern `(menu|nav|sidebar|cookie|banner)` searches successfully exactly
when the token contains one of those five words as a substring. -/

/-- A parsed HTML node: a text node, or an element with its tag name, its
list of class tokens, and its children. -/
inductive HNode where
  | text : String → HNode
  | elem : String → List String → List HNode → HNode
deriving Repr

/-- The tags decomposed by the first loop of `clean_html` (line 131). -/
def junkTags : List String := ["nav", "header", "footer", "script", "style", "aside", "form"]

/-- The class-pattern alternatives of the regex on line 133. -/
def junkClassPats : List String := ["menu", "nav", "sidebar", "cookie", "banner"]

/-- Does the first decompose loop remove this node (tag in `junkTags`)? -/
def isJunkTag : HNode → Bool
  | HNode.text _ => false
  | HNode.elem tag _ _ => junkTags.contains tag

/-- Does the second decompose loop remove this node (a `div` whose class
matches the menu/nav/sidebar/cookie/banner regex)? -/
def isJunkDiv : HNode → Bool
  | HNode.text _ => false
  | HNode.elem tag classes _ =>
      tag == "div" && classes.any (fun c => junkClassPats.any (fun p => containsSub c p))

/-- `tag.decompose()` applied to every node of a forest satisfying `p`:
a removed node disappears with its whole subtree; surviving elements have
their children pruned recursively. -/
def pruneBy (p : HNode → Bool) : List HNode → List HNode
  | [] => []
  | HNode.text s :: rest =>
      if p (HNode.text s) then pruneBy p rest
      else HNode.text s :: pruneBy p rest
  | HNode.elem t c ch :: rest =>
      if p (HNode.elem t c ch) then pruneBy p rest
      else HNode.elem t c (pruneBy p ch) :: pruneBy p rest

/-- All strings of a forest's text nodes, in document order
(the strings `soup.get_text` concatenates). -/
def textsForest : List HNode → List String
  | [] => []
  | HNode.text s :: rest => s :: textsForest rest
  | HNode.elem _ _ ch :: rest => textsForest ch ++ textsForest rest

/-- Every node of a forest, including all descendants. -/
def allNodesF : List HNode → List HNode
  | [] => []
  | HNode.text s :: rest => HNode.text s :: allNodesF rest
  | HNode.elem t c ch :: rest =>
      HNode.elem t c ch :: (allNodesF ch ++ allNodesF rest)

/-- The text-node strings of a forest that do not lie inside any subtree
whose root satisfies `p` — the texts a simultaneous removal of all
`p`-subtrees would keep. -/
def keptTexts (p : HNode → Bool) : List HNode → List String
  | [] => []
  | HNode.text s :: rest =>
      (if p (HNode.text s) then [] else [s]) ++ keptTexts p rest
  | HNode.elem t c ch :: rest =>
      (if p (HNode.elem t c ch) then [] else keptTexts p ch) ++ keptTexts p rest

/-- Join a list of strings with a separator. -/
def joinSep (sep : String) : List String → String
  | [] => ""
  | [s] => s
  | s :: s' :: rest => s ++ sep ++ joinSep sep (s' :: rest)

/-- `soup.get_text(separator=" ", strip=True)`: strip every text-node
string, drop the ones that become empty, join the rest with a single
space. -/
def getTextStrip (ns : List HNode) : String :=
  joinSep " " (((textsForest ns).map String.trim).filter (fun s => s ≠ ""))

/-- `clean_html` (`src/ingest.py` lines 129–135) on the parsed forest:
decompose the junk-tag nodes, then decompose the matching `div`s, then
extract the text. -/
def clean_html (doc : List HNode) : String :=
  getTextStrip (pruneBy isJunkDiv (pruneBy isJunkTag doc))

/-! ## Lemmas: deduplication -/

theorem lookupA_updateAssoc (m : List (String × Doc)) (k k' : String) (v : Doc) :
    lookupA (updateAssoc m k v) k' = if k' = k then some v else lookupA m k' := by
  induction m with
  | nil =>
      simp only [updateAssoc, lookupA]
      split_ifs with h1 h2 <;> simp_all
  | cons p rest ih =>
      obtain ⟨k₀, v₀⟩ := p
      simp only [updateAssoc, lookupA]
      split_ifs with h1 h2 h3 <;> simp_all [lookupA]

theorem mem_keys_updateAssoc {m : List (String × Doc)} {k x : String} {v : Doc}
    (hx : x ∈ (updateAssoc m k v).map Prod.fst) :
    x ∈ m.map Prod.fst ∨ x = k := by
  induction m with
  | nil => simpa [updateAssoc] using hx
  | cons p rest ih =>
      obtain ⟨k₀, v₀⟩ := p
      by_cases h₀ : k₀ = k
      · simp only [updateAssoc, if_pos h₀, List.map_cons, List.mem_cons] at hx
        rcases hx with h | h
        · exact Or.inr h
        · exact Or.inl (by simp only [List.map_cons, List.mem_cons]; exact Or.inr h)
      · simp only [updateAssoc, if_neg h₀, List.map_cons, List.mem_cons] at hx
        rcases hx with h | h
        · exact Or.inl (by simp only [List.map_cons, List.mem_cons]; exact Or.inl h)
        · rcases ih h with h' | h'
          · exact Or.inl (by simp only [List.map_cons, List.mem_cons]; exact Or.inr h')
          · exact Or.inr h'

theorem keys_nodup_updateAssoc {m : List (String × Doc)} {k : String} {v : Doc}
    (hm : (m.map Prod.fst).Nodup) :
    ((updateAssoc m k v).map Prod.fst).Nodup := by
  induction m with
  | nil => simp [updateAssoc]
  | cons p rest ih =>
      obtain ⟨k₀, v₀⟩ := p
      rw [List.map_cons, List.nodup_cons] at hm
      by_cases h₀ : k₀ = k
      · subst h₀
        rw [updateAssoc, if_pos rfl, List.map_cons, List.nodup_cons]
        exact hm
      · rw [updateAssoc, if_neg h₀, List.map_cons, List.nodup_cons]
        refine ⟨?_, ih hm.2⟩
        intro hmem
        rcases mem_keys_updateAssoc hmem with h | h
        · exact hm.1 h
        · exact h₀ h

theorem mem_updateAssoc {m : List (String × Doc)} {k : String} {v : Doc} {p : String × Doc}
    (hp : p ∈ updateAssoc m k v) : p = (k, v) ∨ p ∈ m := by
  induction m with
  | nil => simpa [updateAssoc] using hp
  | cons q rest ih =>
      obtain ⟨k₀, v₀⟩ := q
      by_cases h₀ : k₀ = k
      · rw [updateAssoc, if_pos h₀, List.mem_cons] at hp
        rcases hp with h | h
        · exact Or.inl h
        · exact Or.inr (List.mem_cons_of_mem _ h)
      · rw [updateAssoc, if_neg h₀, List.mem_cons] at hp
        rcases hp with h | h
        · exact Or.inr (by rw [h]; exact List.mem_cons_self _ _)
        · rcases ih h with h' | h'
          · exact Or.inl h'
          · exact Or.inr (List.mem_cons_of_mem _ h')

theorem lookupA_foldl (docs : List Doc) (m : List (String × Doc)) (k : String) :
    lookupA (docs.foldl (fun acc d => updateAssoc acc d.source d) m) k =
      ((docs.reverse.find? (fun d => d.source == k)).or (lookupA m k)) := by
  induction docs generalizing m with
  | nil => simp
  | cons d ds ih =>
      rw [List.foldl_cons, ih, List.reverse_cons, List.find?_append, Option.or_assoc]
      congr 1
      rw [lookupA_updateAssoc]
      by_cases h : d.source = k
      · simp [List.find?, h]
      · have hne : ¬ (k = d.source) := fun hk => h hk.symm
        have hb : (d.source == k) = false := by simp [h]
        simp [List.find?, h, hne, hb]

theorem dict_consistent (docs : List Doc) :
    ∀ p ∈ dictOfDocs docs, p.2.source = p.1 := by
  have main : ∀ (ds : List Doc) (m : List (String × Doc)),
      (∀ p ∈ m, p.2.source = p.1) →
      ∀ p ∈ ds.foldl (fun acc d => updateAssoc acc d.source d) m, p.2.source = p.1 := by
    intro ds
    induction ds with
    | nil => intro m hm; simpa using hm
    | cons d rest ih =>
        intro m hm p hp
        refine ih (updateAssoc m d.source d) ?_ p hp
        intro q hq
        rcases mem_updateAssoc hq with h | h
        · rw [h]
        · exact hm q h
  intro p hp
  exact main docs [] (by simp) p hp

theorem dict_keys_nodup (docs : List Doc) :
    ((dictOfDocs docs).map Prod.fst).Nodup := by
  have main : ∀ (ds : List Doc) (m : List (String × Doc)),
      (m.map Prod.fst).Nodup →
      ((ds.foldl (fun acc d => updateAssoc acc d.source d) m).map Prod.fst).Nodup := by
    intro ds
    induction ds with
    | nil => intro m hm; simpa using hm
    | cons d rest ih =>
        intro m hm
        exact ih (updateAssoc m d.source d) (keys_nodup_updateAssoc hm)
  exact main docs [] (by simp)

theorem values_filter_of_not_mem {m : List (String × Doc)} {k : String}
    (hcons : ∀ p ∈ m, p.2.source = p.1) (hk : k ∉ m.map Prod.fst) :
    (m.map Prod.snd).filter (fun r => r.source == k) = [] := by
  induction m with
  | nil => simp
  | cons p rest ih =>
      obtain ⟨k₀, v₀⟩ := p
      have hv : v₀.source = k₀ := hcons (k₀, v₀) (by simp)
      rw [List.map_cons, List.mem_cons] at hk
      push_neg at hk
      have hne : ¬ (v₀.source == k) = true := by
        simp only [beq_iff_eq, hv]
        exact fun h => hk.1 h.symm
      rw [List.map_cons, List.filter_cons, if_neg hne]
      exact ih (fun q hq => hcons q (List.mem_cons_of_mem _ hq)) hk.2

theorem values_filter_eq_lookup {m : List (String × Doc)} {k : String}
    (hcons : ∀ p ∈ m, p.2.source = p.1)
    (hnodup : (m.map Prod.fst).Nodup) :
    (m.map Prod.snd).filter (fun r => r.source == k) = (lookupA m k).toList := by
  induction m with
  | nil => simp [lookupA]
  | cons p rest ih =>
      obtain ⟨k₀, v₀⟩ := p
      have hv : v₀.source = k₀ := hcons (k₀, v₀) (by simp)
      rw [List.map_cons, List.nodup_cons] at hnodup
      by_cases h : k₀ = k
      · subst h
        rw [List.map_cons, List.filter_cons, if_pos (by simp [hv]), lookupA, if_pos rfl]
        have hrest : (rest.map Prod.snd).filter (fun r => r.source == k₀) = [] :=
          values_filter_of_not_mem (fun q hq => hcons q (List.mem_cons_of_mem _ hq)) hnodup.1
        simp [hrest]
      · rw [List.map_cons, List.filter_cons,
            if_neg (by simp only [beq_iff_eq, hv]; exact h),
            lookupA, if_neg h]
        exact ih (fun q hq => hcons q (List.mem_cons_of_mem _ hq)) hnodup.2

/-! ## Lemmas: chunking -/

theorem chunksGo_small {fuel : Nat} {s : List Char} (h : s.length ≤ 1000) :
    chunksGo fuel s = [s] := by
  cases fuel with
  | zero => rfl
  | succ f => simp [chunksGo, h]

theorem chunksGo_ne_nil (fuel : Nat) (s : List Char) : chunksGo fuel s ≠ [] := by
  cases fuel with
  | zero => simp [chunksGo]
  | succ f =>
      by_cases h : s.length ≤ 1000 <;> simp [chunksGo, h]

theorem chunksGo_length_le {fuel : Nat} {s : List Char}
    (hfuel : s.length ≤ 1000 + 800 * fuel) :
    ∀ c ∈ chunksGo fuel s, c.length ≤ 1000 := by
  induction fuel generalizing s with
  | zero =>
      intro c hc
      rw [chunksGo] at hc
      simp at hc
      subst hc
      omega
  | succ f ih =>
      intro c hc
      by_cases h : s.length ≤ 1000
      · rw [chunksGo, if_pos h] at hc
        simp at hc
        subst hc
        exact h
      · rw [chunksGo, if_neg h] at hc
        rcases List.mem_cons.mp hc with h' | h'
        · subst h'
          simp
        · exact ih (by simp; omega) c h'

theorem chunksGo_two_chunks {fuel : Nat} {s : List Char}
    (hfuel : s.length ≤ 1000 + 800 * fuel) (hlong : 1000 < s.length) :
    2 ≤ (chunksGo fuel s).length := by
  cases fuel with
  | zero => omega
  | succ f =>
      rw [chunksGo, if_neg (by omega)]
      have := chunksGo_ne_nil f (s.drop 800)
      have : 1 ≤ (chunksGo f (s.drop 800)).length := by
        cases h : chunksGo f (s.drop 800) with
        | nil => exact absurd h this
        | cons a l => simp
      simp
      omega

theorem chunksGo_drop_flatten {fuel : Nat} {s : List Char}
    (hfuel : s.length ≤ 1000 + 800 * fuel) (h200 : 200 ≤ s.length) :
    ((chunksGo fuel s).map (fun d => d.drop 200)).flatten = s.drop 200 := by
  induction fuel generalizing s with
  | zero =>
      rw [chunksGo]
      simp
  | succ f ih =>
      by_cases h : s.length ≤ 1000
      · rw [chunksGo, if_pos h]; simp
      · rw [chunksGo, if_neg h]
        rw [List.map_cons, List.flatten_cons]
        rw [ih (by simp; omega) (by simp; omega)]
        rw [List.drop_take, List.drop_drop]
        have : (200:Nat) + 800 = 1000 := rfl
        rw [this]
        have h1 : List.take (1000 - 200) (List.drop 200 s) ++ List.drop 1000 s
            = List.drop 200 s := by
          have : List.drop 1000 s = List.drop (1000 - 200) (List.drop 200 s) := by
            rw [List.drop_drop]
          rw [this, List.take_append_drop]
        simpa using h1

theorem split_text_reassemble (s : List Char) : reassemble (split_text s) = s := by
  rw [split_text]
  by_cases h : s.length ≤ 1000
  · rw [chunksGo_small h, reassemble]
    simp
  · have h1 : ∃ f, s.length = f + 1 := ⟨s.length - 1, by omega⟩
    obtain ⟨f, hf⟩ := h1
    rw [hf, chunksGo, if_neg h, reassemble]
    rw [chunksGo_drop_flatten (by simp; omega) (by simp; omega)]
    rw [List.drop_drop]
    have : (800:Nat) + 200 = 1000 := rfl
    rw [this, List.take_append_drop]

theorem chunksGo_indexed {fuel : Nat} {s : List Char}
    (hfuel : s.length ≤ 1000 + 800 * fuel) :
    chunksGo fuel s =
      (List.range (chunksGo fuel s).length).map
        (fun i => (s.drop (800 * i)).take 1000) := by
  induction fuel generalizing s with
  | zero =>
      rw [chunksGo]
      simp [List.range_succ_eq_map, List.take_of_length_le (by omega : s.length ≤ 1000)]
  | succ f ih =>
      by_cases h : s.length ≤ 1000
      · rw [chunksGo, if_pos h]
        simp [List.range_succ_eq_map, List.take_of_length_le h]
      · rw [chunksGo, if_neg h]
        have ih' := ih (s := s.drop 800) (by simp; omega)
        rw [List.length_cons, List.range_succ_eq_map, List.map_cons]
        congr 1
        rw [List.map_map]
        conv_lhs => rw [ih']
        apply List.map_congr_left
        intro i _
        simp only [Function.comp_apply, List.drop_drop]
        congr 2
        omega

theorem split_text_length_le (s : List Char) :
    ∀ c ∈ split_text s, c.length ≤ 1000 :=
  chunksGo_length_le (by omega)

theorem split_text_two_chunks {s : List Char} (h : 1000 < s.length) :
    2 ≤ (split_text s).length :=
  chunksGo_two_chunks (by omega) h

theorem split_text_indexed (s : List Char) :
    split_text s =
      (List.range (split_text s).length).map
        (fun i => (s.drop (800 * i)).take 1000) :=
  chunksGo_indexed (by omega)

/-! ## Lemmas: cleaning -/

/-- A node predicate that only looks at a node's own tag/classes/content,
never at an element's children. -/
def ChildBlind (p : HNode → Bool) : Prop :=
  ∀ t c ch ch', p (HNode.elem t c ch) = p (HNode.elem t c ch')

theorem childBlind_isJunkTag : ChildBlind isJunkTag := by
  intro t c ch ch'; rfl

theorem childBlind_isJunkDiv : ChildBlind isJunkDiv := by
  intro t c ch ch'; rfl

theorem pruneBy_no_junk {p : HNode → Bool} (hp : ChildBlind p) :
    ∀ ns, ∀ m ∈ allNodesF (pruneBy p ns), p m = false := by
  intro ns
  induction ns using pruneBy.induct p with
  | case1 => intro m hm; simp [pruneBy, allNodesF] at hm
  | case2 s rest hps ih =>
      intro m hm
      rw [pruneBy, if_pos hps] at hm
      exact ih m hm
  | case3 s rest hps ih =>
      intro m hm
      rw [pruneBy, if_neg hps, allNodesF] at hm
      rcases List.mem_cons.mp hm with h | h
      · subst h; exact Bool.eq_false_iff.mpr hps
      · exact ih m h
  | case4 t c ch rest hps ih =>
      intro m hm
      rw [pruneBy, if_pos hps] at hm
      exact ih m hm
  | case5 t c ch rest hps ihch ihrest =>
      intro m hm
      rw [pruneBy, if_neg hps, allNodesF] at hm
      rcases List.mem_cons.mp hm with h | h
      · subst h
        rw [hp t c (pruneBy p ch) ch]
        exact Bool.eq_false_iff.mpr hps
      · rcases List.mem_append.mp h with h' | h'
        · exact ihch m h'
        · exact ihrest m h'

theorem pruneBy_preserves_no_junk {p q : HNode → Bool}
    (hp : ChildBlind p) :
    ∀ ns, (∀ m ∈ allNodesF ns, p m = false) →
      ∀ m ∈ allNodesF (pruneBy q ns), p m = false := by
  intro ns
  induction ns using pruneBy.induct q with
  | case1 => intro _ m hm; simp [pruneBy, allNodesF] at hm
  | case2 s rest hqs ih =>
      intro hns m hm
      rw [pruneBy, if_pos hqs] at hm
      refine ih ?_ m hm
      intro m' hm'
      exact hns m' (by rw [allNodesF]; exact List.mem_cons_of_mem _ hm')
  | case3 s rest hqs ih =>
      intro hns m hm
      rw [pruneBy, if_neg hqs, allNodesF] at hm
      rcases List.mem_cons.mp hm with h | h
      · subst h
        exact hns _ (by rw [allNodesF]; exact List.mem_cons_self _ _)
      · refine ih ?_ m h
        intro m' hm'
        exact hns m' (by rw [allNodesF]; exact List.mem_cons_of_mem _ hm')
  | case4 t c ch rest hqs ih =>
      intro hns m hm
      rw [pruneBy, if_pos hqs] at hm
      refine ih ?_ m hm
      intro m' hm'
      refine hns m' ?_
      rw [allNodesF]
      exact List.mem_cons_of_mem _ (List.mem_append_right _ hm')
  | case5 t c ch rest hqs ihch ihrest =>
      intro hns m hm
      rw [pruneBy, if_neg hqs, allNodesF] at hm
      rcases List.mem_cons.mp hm with h | h
      · subst h
        rw [hp t c (pruneBy q ch) ch]
        exact hns _ (by rw [allNodesF]; exact List.mem_cons_self _ _)
      · rcases List.mem_append.mp h with h' | h'
        · refine ihch ?_ m h'
          intro m' hm'
          refine hns m' ?_
          rw [allNodesF]
          exact List.mem_cons_of_mem _ (List.mem_append_left _ hm')
        · refine ihrest ?_ m h'
          intro m' hm'
          refine hns m' ?_
          rw [allNodesF]
          exact List.mem_cons_of_mem _ (List.mem_append_right _ hm')

theorem textsForest_pruneBy (p : HNode → Bool) :
    ∀ ns, textsForest (pruneBy p ns) = keptTexts p ns := by
  intro ns
  induction ns using pruneBy.induct p with
  | case1 => simp [pruneBy, textsForest, keptTexts]
  | case2 s rest hps ih =>
      rw [pruneBy, if_pos hps, keptTexts, if_pos hps, ih]
      simp
  | case3 s rest hps ih =>
      rw [pruneBy, if_neg hps, keptTexts, if_neg hps, textsForest, ih]
      simp
  | case4 t c ch rest hps ih =>
      rw [pruneBy, if_pos hps, keptTexts, if_pos hps, ih]
      simp
  | case5 t c ch rest hps ihch ihrest =>
      rw [pruneBy, if_neg hps, keptTexts, if_neg hps, textsForest, ihch, ihrest]

theorem keptTexts_pruneBy {p q : HNode → Bool} (hq : ChildBlind q) :
    ∀ ns, keptTexts q (pruneBy p ns) = keptTexts (fun n => p n || q n) ns := by
  intro ns
  induction ns using pruneBy.induct p with
  | case1 => simp [pruneBy, keptTexts]
  | case2 s rest hps ih =>
      rw [pruneBy, if_pos hps, ih, keptTexts, if_pos (by simp [hps])]
      simp
  | case3 s rest hps ih =>
      rw [pruneBy, if_neg hps, keptTexts, ih, keptTexts]
      have : (p (HNode.text s) || q (HNode.text s)) = q (HNode.text s) := by
        rw [Bool.eq_false_iff.mpr hps]; simp
      rw [this]
  | case4 t c ch rest hps ih =>
      rw [pruneBy, if_pos hps, ih, keptTexts, if_pos (by simp [hps])]
      simp
  | case5 t c ch rest hps ihch ihrest =>
      rw [pruneBy, if_neg hps, keptTexts, ihrest, keptTexts]
      have h1 : (p (HNode.elem t c ch) || q (HNode.elem t c ch)) = q (HNode.elem t c ch) := by
        rw [Bool.eq_false_iff.mpr hps]; simp
      rw [h1, hq t c (pruneBy p ch) ch]
      by_cases hqe : q (HNode.elem t c ch) = true
      · rw [if_pos hqe, if_pos hqe]
      · rw [if_neg hqe, if_neg hqe, ihch]

/-! ## Auxiliary facts about the crawl loop, and concrete fixtures -/

theorem crawlLoop_spec (batches : List (List Doc)) :
    (crawlLoop batches).1 = batches.flatten ∧
    (crawlLoop batches).2 = batches.map validCount := by
  have main : ∀ (bs : List (List Doc)) (acc : List Doc × List Nat),
      bs.foldl (fun a docs => (a.1 ++ docs, a.2 ++ [validCount docs])) acc
        = (acc.1 ++ bs.flatten, acc.2 ++ bs.map validCount) := by
    intro bs
    induction bs with
    | nil => intro acc; simp
    | cons b rest ih => intro acc; simp [ih]
  rw [crawlLoop, main batches ([], [])]
  simp

/-- A first-run seed page (fixture). -/
def oldPage : Doc :=
  { source := "https://www.winfomi.com/old-service", text := "Old service description" }

/-- A second-run seed page disjoint from the first run (fixture). -/
def newPage : Doc :=
  { source := "https://www.winfomi.com/new-service", text := "New service description" }

/-- A fetched record whose source URL is not under winfomi.com (fixture). -/
def externalDoc : Doc :=
  { source := "https://www.example.org/partner-page", text := "External partner page" }

/-- A chunk record already present in the namespace (fixture). -/
def oldChunk : Chunk :=
  { source := "https://www.winfomi.com/old-service", text := "Old service description" }

/-- A 1001-character document text, one character over the chunk maximum
(fixture). -/
def longText : List Char := List.replicate 1001 'a'

/-! ## Claims -/

/-- Claim C1 — deduplication is last-write-wins: for every ordered input
list of page records and every URL, the deduplicated output restricted to
that URL is exactly the last input record bearing it (one record when the
URL occurs, none when it does not). -/
theorem dedup_last_write_wins (all_docs : List Doc) (url : String) :
    (unique_docs all_docs).filter (fun r => r.source == url) =
      (all_docs.reverse.find? (fun d => d.source == url)).toList := by
  rw [unique_docs,
      values_filter_eq_lookup (dict_consistent all_docs) (dict_keys_nodup all_docs)]
  rw [dictOfDocs, lookupA_foldl]
  simp [lookupA]

/-- Claim C2, counterexample — the namespace is not cleared before an
ingestion batch is written: after a first run ingesting `oldPage` and a
second run ingesting the disjoint `newPage`, the namespace still holds
chunks whose source URL belonged only to the first run, contradicting the
claimed full-replace semantics. -/
theorem namespace_not_cleared :
    (ingest_data (ingest_data [] [[oldPage]]) [[newPage]]).filter
      (fun c => c.source == oldPage.source) ≠ [] := by decide

/-- Claim C2, amended — `ingest_data` only appends to the target
namespace: the fresh batch is added after the prior contents, and every
previously stored chunk is still present after the run (incremental merge,
not full replace). -/
theorem ingest_appends_to_namespace (store : List Chunk) (batches : List (List Doc)) :
    (∃ fresh, ingest_data store batches = store ++ fresh) ∧
    (∀ c ∈ store, c ∈ ingest_data store batches) := by
  refine ⟨⟨_, rfl⟩, ?_⟩
  intro c hc
  exact List.mem_append_left _ hc

/-- Witness for `ingest_appends_to_namespace` at a concrete store and
batch. -/
theorem ingest_appends_to_namespace_witness :
    oldChunk ∈ ingest_data [oldChunk] [[newPage]] :=
  (ingest_appends_to_namespace [oldChunk] [[newPage]]).2 oldChunk
    (List.mem_singleton.mpr rfl)

/-- Claim C3 — chunk length bound and minimum split: every chunk of a
document text has at most 1000 characters, and a text longer than 1000
characters yields at least two chunks. -/
theorem chunk_length_bound (s : List Char) :
    ((split_text s).all (fun c => c.length ≤ 1000)) = true ∧
    (1000 < s.length → 2 ≤ (split_text s).length) := by
  constructor
  · exact List.all_eq_true.mpr
      (fun c hc => decide_eq_true (split_text_length_le s c hc))
  · exact split_text_two_chunks

/-- Witness for `chunk_length_bound` on a 1001-character text. -/
theorem chunk_length_bound_witness :
    ((split_text longText).all (fun c => c.length ≤ 1000)) = true ∧
    2 ≤ (split_text longText).length :=
  ⟨(chunk_length_bound longText).1,
   (chunk_length_bound longText).2
     (by rw [longText, List.length_replicate]; omega)⟩

/-- Claim C4 — chunk round-trip and order: concatenating a document's
chunks with each chunk's leading 200-character overlap removed reproduces
the text exactly, and the i-th chunk is the 1000-character window starting
at offset 800·i, so chunks appear in document order. -/
theorem chunk_reassembly (s : List Char) :
    reassemble (split_text s) = s ∧
    split_text s =
      (List.range (split_text s).length).map
        (fun i => (s.drop (800 * i)).take 1000) :=
  ⟨split_text_reassemble s, split_text_indexed s⟩

/-- Claim C5 — cleaner removal: after `clean_html`'s two decompose passes
no node satisfying either junk predicate survives anywhere in the tree, and
the cleaner's output is assembled exclusively from the text nodes that lie
outside every junk subtree, so text inside a removed subtree never
contributes to the output. -/
theorem clean_html_removes_junk (doc : List HNode) :
    (allNodesF (pruneBy isJunkDiv (pruneBy isJunkTag doc))).countP
        (fun m => isJunkTag m || isJunkDiv m) = 0 ∧
    clean_html doc =
      joinSep " " (((keptTexts (fun n => isJunkTag n || isJunkDiv n) doc).map
        String.trim).filter (fun s => s ≠ "")) := by
  constructor
  · rw [List.countP_eq_zero]
    intro m hm
    have h1 : isJunkTag m = false :=
      pruneBy_preserves_no_junk childBlind_isJunkTag _
        (pruneBy_no_junk childBlind_isJunkTag doc) m hm
    have h2 : isJunkDiv m = false := pruneBy_no_junk childBlind_isJunkDiv _ m hm
    simp [h1, h2]
  · rw [clean_html, getTextStrip, textsForest_pruneBy,
        keptTexts_pruneBy childBlind_isJunkDiv]

/-- Claim C6 — `/chat` error absorption: the endpoint answers status 200 on
every path; a successful chain call is returned verbatim, and a failure is
mapped to the cool-down message when its error text contains `"429"` and to
the generic failure message otherwise. -/
theorem chat_endpoint_absorbs_errors (r : Except String String) :
    (chat_endpoint r).1 = 200 ∧
    (∀ answer, r = Except.ok answer → (chat_endpoint r).2 = answer) ∧
    (∀ msg, r = Except.error msg →
      (chat_endpoint r).2 =
        if containsSub msg "429" then coolDownMsg else genericFailMsg) := by
  refine ⟨?_, ?_, ?_⟩
  · cases r <;> rfl
  · intro a h; subst h; rfl
  · intro m h; subst h; rfl

/-- Witness for `chat_endpoint_absorbs_errors` on a rate-limit error. -/
theorem chat_endpoint_absorbs_errors_witness :
    (chat_endpoint (Except.error "Error code: 429 rate limit")).1 = 200 ∧
    (chat_endpoint (Except.error "Error code: 429 rate limit")).2 =
      (if containsSub "Error code: 429 rate limit" "429" then coolDownMsg
       else genericFailMsg) :=
  ⟨(chat_endpoint_absorbs_errors _).1,
   (chat_endpoint_absorbs_errors _).2.2 _ rfl⟩

/-- Claim C7 — `/suggestions` degradation: the endpoint answers status 200
with a suggestions list on every file state; a missing or unparseable
backing file yields the empty list, and a parsed JSON list is returned as
is. -/
theorem get_suggestions_degrades (fs : SuggestionsFile) :
    (get_suggestions fs).1 = 200 ∧
    (fs = SuggestionsFile.missing ∨ fs = SuggestionsFile.unparseable →
      (get_suggestions fs).2 = []) ∧
    (∀ items, fs = SuggestionsFile.jsonList items →
      (get_suggestions fs).2 = items) := by
  refine ⟨?_, ?_, ?_⟩
  · cases fs <;> rfl
  · intro h; rcases h with h | h <;> subst h <;> rfl
  · intro items h; subst h; rfl

/-- Witness for `get_suggestions_degrades` with the backing file missing. -/
theorem get_suggestions_degrades_witness :
    (get_suggestions SuggestionsFile.missing).1 = 200 ∧
    (get_suggestions SuggestionsFile.missing).2 = [] :=
  ⟨(get_suggestions_degrades _).1,
   (get_suggestions_degrades _).2.1 (Or.inl rfl)⟩

/-- Claim C8, counterexample — the ingestion process performs no startup
credential check: with the Pinecone key absent from the environment its
module load still succeeds, contradicting the claim that ingestion refuses
to run when a key is missing. -/
theorem ingest_no_key_check : ingestModuleLoad none = Except.ok () := rfl

/-- Claim C8, amended — only the serving process validates credentials at
start: it raises when either key is unset, while the ingestion process
never refuses at module load regardless of the environment. -/
theorem credentials_check_amended :
    (∀ g p : Option String, g = none ∨ p = none →
      ∃ msg, serverModuleLoad g p = Except.error msg) ∧
    (∀ p : Option String, ingestModuleLoad p = Except.ok ()) := by
  constructor
  · intro g p h
    rcases h with h | h <;> subst h
    · exact ⟨missingKeysMsg, by simp [serverModuleLoad]⟩
    · exact ⟨missingKeysMsg, by simp [serverModuleLoad]⟩
  · intro p; rfl

/-- Witness for `credentials_check_amended` with the chat key unset and the
Pinecone key unset. -/
theorem credentials_check_amended_witness :
    (∃ msg, serverModuleLoad none (some "k") = Except.error msg) ∧
    ingestModuleLoad none = Except.ok () :=
  ⟨credentials_check_amended.1 none (some "k") (Or.inl rfl),
   credentials_check_amended.2 none⟩

/-- Claim C9 — determinism of the cleaner and the chunker: both are pure
functions of their input in this embedding, as in the source (no state, no
randomness), so running either twice on identical input yields identical
output. -/
theorem cleaner_chunker_deterministic (doc : List HNode) (s : List Char) :
    clean_html doc = clean_html doc ∧ split_text s = split_text s :=
  ⟨rfl, rfl⟩

/-- Claim C10 — the accumulator receives unfiltered batches: the crawl loop
appends every fetched record (the winfomi.com filter only feeds the printed
count), so a record whose source is off-site is still deduplicated,
chunked, and upserted, and the accumulator can outgrow the reported
valid-page total. -/
theorem crawl_accumulates_unfiltered :
    (∀ batches : List (List Doc), (crawlLoop batches).1 = batches.flatten) ∧
    (crawlLoop [[externalDoc]]).2 = [0] ∧
    (crawlLoop [[externalDoc]]).2.sum < (crawlLoop [[externalDoc]]).1.length ∧
    (ingest_data [] [[externalDoc]]).any
      (fun c => c.source == externalDoc.source) = true := by
  refine ⟨fun b => (crawlLoop_spec b).1, ?_, ?_, ?_⟩ <;> decide

end WinfomiBot
